import Mathlib

/-!
Verification of the MLE block-sharing error model (POPRES-Analysis,
mle_estim_error.py).  The class MLE_estim_error is embedded shallowly over
the rationals: the floating-point transcendental primitives (numpy exp,
log, sqrt) are abstracted as a structure of rational functions, so every
structural statement below holds for every interpretation of them, and
concrete witnesses fix one interpretation.  Minus infinity, which the
source uses as a sentinel log-likelihood, is modelled by the bottom
element of WithBot.
-/

/-- Abstract numeric primitives standing for the floating-point
transcendental functions the source calls (numpy exp, log, sqrt). -/
structure Prims where
  exp : ℚ → ℚ
  log : ℚ → ℚ
  sqrt : ℚ → ℚ

/-- censor_prob from the source: probability a true block of length l is
never observed. -/
def censor_prob (P : Prims) (l : ℚ) : ℚ :=
  1 / (1 + 0.0772355 * l ^ 2 * P.exp (0.5423082 * l))

/-- prob_down from the source: probability that the observed block is
shorter than the true block. -/
def prob_down (P : Prims) (l : ℚ) : ℚ :=
  let l1 := max (l - 1) 0
  (1 - 1 / (1 + 0.5066205 * l1 * P.exp (0.6761991 * l1))) * 0.341945

/-- up_rate from the source: constant rate of the upward length-error
exponential. -/
def up_rate (_l : ℚ) : ℚ := 1.399283

/-- down_rate from the source: capped rate of the downward length-error
exponential. -/
def down_rate (l : ℚ) : ℚ := min 12 (0.4009342 + 1 / (0.18161222 * l))

/-- fp_rate from the source: false-positive block rate per pair. -/
def fp_rate (P : Prims) (l : ℚ) : ℚ :=
  P.exp (-13.704 - 2.095 * l + 4.381 * P.sqrt l) * 3587

/-- numpy arange: start + k·step for k below ceil((stop − start)/step),
for any nonzero step (a negative step descends when stop < start and gives
an empty array otherwise, as in numpy).  A step of exactly zero makes
numpy raise a ZeroDivisionError; that error path is not modelled, and
every theorem below assumes a positive step, as the source's
configuration uses. -/
def arange (a b step : ℚ) : List ℚ :=
  if step ≠ 0 then (List.range ⌈(b - a) / step⌉.toNat).map (fun (k : ℕ) => a + (k : ℚ) * step)
  else []

/-- Python bisect_left on a sorted list: the number of elements strictly
below x, which is the leftmost insertion point. -/
def bisect_left (a : List ℚ) (x : ℚ) : ℕ := a.countP (fun y => decide (y < x))

/-- Python bisect_right on a sorted list: the number of elements not above
x, which is the rightmost insertion point. -/
def bisect_right (a : List ℚ) (x : ℚ) : ℕ := a.countP (fun y => decide (y ≤ x))

/-- Python sequence indexing: a nonnegative index counts from the front, a
negative one from the back; out-of-range indices return 0 (the source never
indexes out of range on the paths studied here). -/
def pyGet (xs : List ℚ) (i : ℤ) : ℚ :=
  if 0 ≤ i then xs.getD i.toNat 0 else xs.getD ((xs.length : ℤ) + i).toNat 0

/-- numpy dot of a matrix (list of rows) with a vector. -/
def matVec (rows : List (List ℚ)) (v : List ℚ) : List ℚ :=
  rows.map (fun row => (List.zipWith (fun p q => p * q) row v).sum)

/-- numpy mean of a list. -/
def mean (xs : List ℚ) : ℚ := xs.sum / (xs.length : ℚ)

/-- Python range(a, b) over integers. -/
def intRange (a b : ℤ) : List ℤ :=
  (List.range (b - a).toNat).map (fun (k : ℕ) => a + (k : ℤ))

/-- The state of an MLE_estim_error instance: the configuration attributes,
the derived grid, the error profile and transition matrix, the transient
per-evaluation vectors, and the data handed to the constructor. -/
structure Model where
  min_b : ℚ
  max_b : ℚ
  bin_width : ℚ
  min_len : ℚ
  max_len : ℚ
  min_ind : ℕ
  max_ind : ℕ
  mid_bins : List ℚ
  fp_rate : List ℚ
  theoretical_shr : List ℚ
  trans_mat : List (List ℚ)
  full_shr_pr : List ℚ
  density_fun : List ℚ → ℚ → List ℚ → List ℚ
  error_model : Bool
  start_params : List ℚ
  estimates : List ℚ
  endog : List (List ℚ)
  exog : List (ℚ × ℚ)

/-- create_bins from the source: builds the bin edges, locates the analysis
window by leftmost insertion of min_len and max_len, derives the midpoints,
and zero-initializes the k × k transition matrix. -/
def create_bins (m : Model) : Model :=
  let bins := arange m.min_b m.max_b m.bin_width
  let mid := bins.map (fun b => b + 0.5 * m.bin_width)
  { m with
    min_ind := bisect_left bins m.min_len
    max_ind := bisect_left bins m.max_len
    mid_bins := mid
    trans_mat := List.replicate mid.length (List.replicate mid.length 0) }

/-- The value calculate_trans_mat stores at row j, column i (x the
true-length midpoint of column i, y the observed midpoint of row j); the
three branches are the source's j < i, j > i and j = i cases. -/
def trans_entry (P : Prims) (mid : List ℚ) (w : ℚ) (j i : ℕ) : ℚ :=
  let x := mid.getD i 0
  let pr_detect := 1 - censor_prob P x
  if j < i then
    let y := mid.getD j 0
    pr_detect * (prob_down P x * down_rate x * P.exp (-(down_rate x) * (x - y)) /
      (1 - P.exp (-(down_rate x) * (x - 1)))) * w
  else if i < j then
    let y := mid.getD j 0
    pr_detect * ((1 - prob_down P x) * up_rate x * P.exp (-(up_rate x) * (y - max x 1))) * w
  else
    let y := x
    pr_detect * (1 / 2) *
      (prob_down P x * down_rate x * P.exp (-(down_rate x) * (x - y)) /
          (1 - P.exp (-(down_rate x) * (x - 1))) +
        (1 - prob_down P x) * up_rate x * P.exp (-(up_rate x) * (y - x))) * w

/-- calculate_trans_mat from the source: the in-place double loop writes
each position (j, i) exactly once, with the value trans_entry. -/
def calculate_trans_mat (P : Prims) (m : Model) : Model :=
  let k := m.trans_mat.length
  { m with trans_mat :=
      (List.range k).map (fun j =>
        (List.range k).map (fun i => trans_entry P m.mid_bins m.bin_width j i)) }

/-- calculate_thr_shr from the source: the pluggable density evaluated at
the midpoints, scaled by the bin width. -/
def calculate_thr_shr (m : Model) (r : ℚ) (params : List ℚ) : Model :=
  { m with theoretical_shr := (m.density_fun m.mid_bins r params).map (fun v => v * m.bin_width) }

/-- calculate_full_bin_prob from the source: with the error model the
transition matrix is applied and the false-positive profile added;
without it the theoretical sharing is taken unchanged. -/
def calculate_full_bin_prob (m : Model) : Model :=
  { m with full_shr_pr :=
      if m.error_model then
        List.zipWith (fun p q => p + q) (matVec m.trans_mat m.theoretical_shr) m.fp_rate
      else m.theoretical_shr }

/-- The two transient recomputations every evaluation performs, in the
order pairwise_ll and get_bl_shr_interval perform them. -/
def evalModel (m : Model) (r : ℚ) (params : List ℚ) : Model :=
  calculate_full_bin_prob (calculate_thr_shr m r params)

/-- The constructor of MLE_estim_error (the statsmodels superclass setup is
elided to storing endog and exog).  The source constructor performs no
validation of the bin or window configuration and contains no raise
statement of its own; library calls can still fail on degenerate input
(numpy arange raises on a bin width of exactly zero, a path not modelled
here). -/
def mle_init (P : Prims) (bl_dens_fun : List ℚ → ℚ → List ℚ → List ℚ)
    (sp : List ℚ) (pw_dist : List ℚ) (pw_IBD : List (List ℚ)) (pw_nr : List ℚ)
    (error_model : Bool) (min_b max_b bin_width min_len max_len : ℚ) : Model :=
  let m0 : Model :=
    { min_b := min_b, max_b := max_b, bin_width := bin_width
      min_len := min_len, max_len := max_len
      min_ind := 0, max_ind := 0
      mid_bins := [], fp_rate := [], theoretical_shr := []
      trans_mat := [[0, 0], [0, 0]], full_shr_pr := []
      density_fun := bl_dens_fun, error_model := error_model
      start_params := sp, estimates := []
      endog := pw_IBD, exog := pw_dist.zip pw_nr }
  let m1 := create_bins m0
  let m2 := { m1 with fp_rate := m1.mid_bins.map (fun l => fp_rate P l * bin_width) }
  if error_model then calculate_trans_mat P m2 else m2

/-- The window bin edges pairwise_ll works with: the midpoints from min_ind
to max_ind inclusive, each shifted down by half a bin width. -/
def window_edges (m : Model) : List ℚ :=
  ((m.mid_bins.take (m.max_ind + 1)).drop m.min_ind).map (fun v => v - 0.5 * m.bin_width)

/-- The observed lengths pairwise_ll retains: those between the first and
the last window edge. -/
def retained (m : Model) (l : List ℚ) : List ℚ :=
  l.filter (fun x =>
    decide ((window_edges m).headD 0 ≤ x) && decide (x ≤ (window_edges m).getLastD 0))

/-- The window slice of the full per-bin sharing probabilities. -/
def window_probs (m : Model) : List ℚ :=
  (m.full_shr_pr.take m.max_ind).drop m.min_ind

/-- The window-relative bin index pairwise_ll assigns to an observed
length: leftmost insertion point among the window edges, minus one. -/
def obs_bin (m : Model) (x : ℚ) : ℤ := (bisect_left (window_edges m) x : ℤ) - 1

/-- pairwise_ll from the source: filters the observations to the window,
recomputes the transient sharing vectors, and returns the updated model
together with the per-pair log-likelihood. -/
def pairwise_ll (P : Prims) (m : Model) (l : List ℚ) (ex : ℚ × ℚ) (params : List ℚ) :
    Model × ℚ :=
  let pw_nr := ex.2
  let bins := ((m.mid_bins.take (m.max_ind + 1)).drop m.min_ind).map
    (fun v => v - 0.5 * m.bin_width)
  let lf := l.filter (fun x => decide (bins.headD 0 ≤ x) && decide (x ≤ bins.getLastD 0))
  let m1 := evalModel m ex.1 params
  let shr_pr := (m1.full_shr_pr.take m.max_ind).drop m.min_ind
  let log_pr_no_shr := -shr_pr.sum * pw_nr
  let l1 :=
    if 0 < lf.length then
      (lf.map (fun x => P.log (pyGet shr_pr ((bisect_left bins x : ℤ) - 1)))).sum
    else 0
  (m1, l1 + log_pr_no_shr)

/-- loglikeobs from the source: reads C and sigma from the parameter
vector, short-circuits to the minus-infinity sentinel when either is not
positive, and otherwise folds pairwise_ll over the pair data. -/
def loglikeobs (P : Prims) (m : Model) (params : List ℚ) : Model × List (WithBot ℚ) :=
  let C := params.getD 0 0
  let sigma := params.getD 1 0
  if C ≤ 0 ∨ sigma ≤ 0 then
    (m, List.replicate m.endog.length (⊥ : WithBot ℚ))
  else
    (m.endog.zip m.exog).foldl
      (fun acc pr =>
        let res := pairwise_ll P acc.1 pr.1 pr.2 params
        (res.1, acc.2 ++ [(res.2 : WithBot ℚ)]))
      (m, [])

/-- The loop body of get_bl_shr_interval: recompute the transient sharing
for one distance, take the bins from ind − 1 to ind1 inclusive, average,
and rescale by the interval length over the bin width. -/
def gbs_body (ind ind1 : ℕ) (ps : List ℚ) (interval : ℚ × ℚ)
    (acc : Model × List ℚ) (ri : ℚ) : Model × List ℚ :=
  let m1 := evalModel acc.1 ri ps
  let vals := (intRange ((ind : ℤ) - 1) ((ind1 : ℤ) + 1)).map (fun j => pyGet m1.full_shr_pr j)
  (m1, acc.2 ++ [mean vals * (interval.2 - interval.1) / m1.bin_width])

/-- get_bl_shr_interval from the source: a parameter vector whose first
entry is zero is replaced by the stored estimates; the covering bins are
located by insertion-point search on the edges; one estimate is produced
per distance. -/
def get_bl_shr_interval (m : Model) (interval : ℚ × ℚ) (r : List ℚ)
    (params : List ℚ) : Model × List ℚ :=
  let ps := if params.getD 0 0 = 0 then m.estimates else params
  let bins := m.mid_bins.map (fun v => v - 0.5 * m.bin_width)
  r.foldl (gbs_body (bisect_right bins interval.1) (bisect_left bins interval.2) ps interval)
    (m, [])

/-- The single estimate gbs_body appends for one distance ri, expressed
against the model state at the start of the loop (the transient updates of
earlier iterations do not change any field the estimate reads). -/
def gbs_val (m : Model) (ind ind1 : ℕ) (ps : List ℚ) (interval : ℚ × ℚ) (ri : ℚ) : ℚ :=
  mean ((intRange ((ind : ℤ) - 1) ((ind1 : ℤ) + 1)).map
      (fun j => pyGet (evalModel m ri ps).full_shr_pr j))
    * (interval.2 - interval.1) / m.bin_width

/-- A concrete interpretation of the numeric primitives, used only by the
concrete witnesses and counterexamples below. -/
def P0 : Prims := ⟨fun q => 1 + q, fun q => q, fun q => q⟩

/-- A concrete pluggable density (the class accepts any density function). -/
def densId : List ℚ → ℚ → List ℚ → List ℚ := fun l _ _ => l

/-- A model built through the constructor on a 3-bin grid (bins 0 to 0.3
in steps of 0.1, window 0.1 to 0.2) with the error model disabled, small
enough for concrete evaluation. -/
def mSmall : Model :=
  mle_init P0 densId [1, 1] [50] [[5]] [100] false 0 (3 / 10) (1 / 10) (1 / 10) (2 / 10)

/-- The same 3-bin model with the error model enabled, used by concrete
witnesses that need the transition matrix. -/
def mErr : Model :=
  mle_init P0 densId [1, 1] [50] [[5]] [100] true 0 (3 / 10) (1 / 10) (1 / 10) (2 / 10)

/-- The guarded sum in pairwise_ll: the source returns 0 for an empty
retained list, which agrees with the empty sum. -/
theorem ite_len_sum (xs : List ℚ) (f : ℚ → ℚ) :
    (if 0 < xs.length then (xs.map f).sum else 0) = (xs.map f).sum := by
  cases xs <;> simp

/-- The concrete 3-bin edge list. -/
theorem arange_small : arange 0 (3 / 10) (1 / 10) = [0, 1 / 10, 1 / 5] := by
  have hc : (⌈(((3 : ℚ) / 10) - 0) / (1 / 10)⌉).toNat = 3 := by
    have h : (⌈(((3 : ℚ) / 10) - 0) / (1 / 10)⌉) = 3 := by norm_num
    rw [h]; rfl
  rw [arange, if_pos (by norm_num : (1 : ℚ) / 10 ≠ 0), hc]
  simp only [List.range_succ, List.range_zero, List.map_append, List.map_cons, List.map_nil,
    List.nil_append, List.cons_append, List.append_assoc]
  norm_num

/-- The midpoints of the concrete 3-bin grid. -/
theorem mSmall_mid_bins : mSmall.mid_bins = [1 / 20, 3 / 20, 1 / 4] := by
  have h : mSmall.mid_bins
      = (arange 0 (3 / 10) (1 / 10)).map (fun b => b + 0.5 * (1 / 10)) := rfl
  rw [h, arange_small]
  norm_num

/-- The window start index of the concrete 3-bin model. -/
theorem mSmall_min_ind : mSmall.min_ind = 1 := by
  have h : mSmall.min_ind = bisect_left (arange 0 (3 / 10) (1 / 10)) (1 / 10) := rfl
  rw [h, arange_small, bisect_left]
  simp only [List.countP_cons, List.countP_nil, decide_eq_true_eq]
  norm_num

/-- The window stop index of the concrete 3-bin model. -/
theorem mSmall_max_ind : mSmall.max_ind = 2 := by
  have h : mSmall.max_ind = bisect_left (arange 0 (3 / 10) (1 / 10)) (2 / 10) := rfl
  rw [h, arange_small, bisect_left]
  simp only [List.countP_cons, List.countP_nil, decide_eq_true_eq]
  norm_num

/-- The bin width of the concrete 3-bin model. -/
theorem mSmall_bin_width : mSmall.bin_width = 1 / 10 := rfl

/-- The window edges of the concrete 3-bin model. -/
theorem window_edges_mSmall : window_edges mSmall = [1 / 10, 1 / 5] := by
  rw [window_edges, mSmall_mid_bins, mSmall_min_ind, mSmall_max_ind, mSmall_bin_width]
  norm_num

/-- The transition matrix of any constructed model is square of the grid
size, with or without the error model. -/
theorem mle_init_trans_len (P : Prims) (dens : List ℚ → ℚ → List ℚ → List ℚ)
    (sp dist : List ℚ) (ibd : List (List ℚ)) (nr : List ℚ) (em : Bool)
    (a b w mn mx : ℚ) :
    (mle_init P dens sp dist ibd nr em a b w mn mx).trans_mat.length
      = (arange a b w).length := by
  cases em <;> simp [mle_init, create_bins, calculate_trans_mat]

/-- The transition matrix of the concrete 3-bin error model has 3 rows. -/
theorem mErr_trans_len : mErr.trans_mat.length = 3 := by
  have h : mErr.trans_mat.length = (arange 0 (3 / 10) (1 / 10)).length :=
    mle_init_trans_len P0 densId [1, 1] [50] [[5]] [100] true 0 (3 / 10) (1 / 10)
      (1 / 10) (2 / 10)
  rw [h, arange_small]
  rfl

/-- C1: pairwise_ll discards observed lengths outside the window edge
range, maps each retained length to a bin by leftmost insertion-point
search on the window edges minus one, and returns the sum of the logs of
the windowed full sharing probabilities at those bins minus pw_nr times
the sum of the windowed probabilities; an empty observation list yields
exactly minus pw_nr times the window sum. -/
theorem C1_pairwise_ll_formula (P : Prims) (m : Model) (l : List ℚ) (ex : ℚ × ℚ)
    (params : List ℚ) :
    (pairwise_ll P m l ex params).2 =
      ((retained m l).map (fun x =>
          P.log (pyGet (window_probs (evalModel m ex.1 params)) (obs_bin m x)))).sum
        - ex.2 * (window_probs (evalModel m ex.1 params)).sum
    ∧ (pairwise_ll P m [] ex params).2 =
        -(ex.2 * (window_probs (evalModel m ex.1 params)).sum) := by
  constructor
  · simp only [pairwise_ll, retained, window_probs, obs_bin, window_edges, evalModel,
      calculate_thr_shr, calculate_full_bin_prob]
    rw [ite_len_sum]
    ring
  · simp only [pairwise_ll, window_probs, evalModel, calculate_thr_shr,
      calculate_full_bin_prob, List.filter_nil, List.length_nil]
    norm_num
    ring

/-- C2: whenever the first parameter (C) or the second (sigma) is not
positive, loglikeobs returns the minus-infinity sentinel for every
observation, leaving the model untouched and never reaching pairwise_ll or
the density function (the result is the same for every model state). -/
theorem C2_neg_param_guard (P : Prims) (m : Model) (params : List ℚ)
    (h : params.getD 0 0 ≤ 0 ∨ params.getD 1 0 ≤ 0) :
    loglikeobs P m params = (m, List.replicate m.endog.length (⊥ : WithBot ℚ)) := by
  simp only [loglikeobs]
  rw [if_pos h]

/-- Witness for C2 at a concrete input. -/
theorem C2_neg_param_guard_witness :
    (([0, 1] : List ℚ).getD 0 0 ≤ 0 ∨ ([0, 1] : List ℚ).getD 1 0 ≤ 0) ∧
      loglikeobs P0 mSmall [0, 1]
        = (mSmall, List.replicate mSmall.endog.length (⊥ : WithBot ℚ)) :=
  ⟨Or.inl (by decide), C2_neg_param_guard P0 mSmall [0, 1] (Or.inl (by decide))⟩

/-- C4: calculate_thr_shr sets the theoretical sharing to density times
bin width; with the error model enabled the full sharing probabilities are
the transition matrix applied to the theoretical sharing plus the
false-positive profile, and with it disabled they are the theoretical
sharing itself, element for element. -/
theorem C4_thr_and_full_bin_prob (m : Model) (r : ℚ) (params : List ℚ) :
    (calculate_thr_shr m r params).theoretical_shr
        = (m.density_fun m.mid_bins r params).map (fun v => v * m.bin_width)
    ∧ (m.error_model = true →
        (evalModel m r params).full_shr_pr
          = List.zipWith (fun p q => p + q)
              (matVec m.trans_mat (calculate_thr_shr m r params).theoretical_shr)
              m.fp_rate)
    ∧ (m.error_model = false →
        (evalModel m r params).full_shr_pr
          = (calculate_thr_shr m r params).theoretical_shr) := by
  refine ⟨rfl, fun h => ?_, fun h => ?_⟩ <;>
    simp [evalModel, calculate_full_bin_prob, calculate_thr_shr, h]

/-- Witness for C4: both error-model branches exercised concretely. -/
theorem C4_thr_and_full_bin_prob_witness :
    ((evalModel mErr 50 [1, 1]).full_shr_pr
        = List.zipWith (fun p q => p + q)
            (matVec mErr.trans_mat (calculate_thr_shr mErr 50 [1, 1]).theoretical_shr)
            mErr.fp_rate)
    ∧ ((evalModel mSmall 50 [1, 1]).full_shr_pr
        = (calculate_thr_shr mSmall 50 [1, 1]).theoretical_shr) :=
  ⟨(C4_thr_and_full_bin_prob mErr 50 [1, 1]).2.1 rfl,
    (C4_thr_and_full_bin_prob mSmall 50 [1, 1]).2.2 rfl⟩

/-- C8: pairwise_ll leaves the grid, the error profile, the transition
matrix, the window indices and the bin width unchanged; the resulting
state differs from the input state only in the two transient fields. -/
theorem C8_pairwise_ll_frame (P : Prims) (m : Model) (l : List ℚ) (ex : ℚ × ℚ)
    (params : List ℚ) :
    (pairwise_ll P m l ex params).1.mid_bins = m.mid_bins
    ∧ (pairwise_ll P m l ex params).1.fp_rate = m.fp_rate
    ∧ (pairwise_ll P m l ex params).1.trans_mat = m.trans_mat
    ∧ (pairwise_ll P m l ex params).1.min_ind = m.min_ind
    ∧ (pairwise_ll P m l ex params).1.max_ind = m.max_ind
    ∧ (pairwise_ll P m l ex params).1.bin_width = m.bin_width
    ∧ (pairwise_ll P m l ex params).1
        = { m with
            theoretical_shr := (pairwise_ll P m l ex params).1.theoretical_shr
            full_shr_pr := (pairwise_ll P m l ex params).1.full_shr_pr } :=
  ⟨rfl, rfl, rfl, rfl, rfl, rfl, rfl⟩

/-- C10: a parameter vector whose first entry is zero is discarded by
get_bl_shr_interval in favour of the stored estimates, so such a query is
indistinguishable from a query at the stored estimates. -/
theorem C10_zero_params_use_estimates (m : Model) (interval : ℚ × ℚ) (r : List ℚ)
    (params : List ℚ) (h : params.getD 0 0 = 0) :
    get_bl_shr_interval m interval r params
      = get_bl_shr_interval m interval r m.estimates := by
  simp only [get_bl_shr_interval]
  rw [if_pos h]
  by_cases h2 : m.estimates.getD 0 0 = 0
  · rw [if_pos h2]
  · rw [if_neg h2]

/-- Witness for C10 at the source's default argument. -/
theorem C10_zero_params_use_estimates_witness :
    (([0] : List ℚ).getD 0 0 = 0) ∧
      get_bl_shr_interval mSmall (5, 51 / 10) [50] [0]
        = get_bl_shr_interval mSmall (5, 51 / 10) [50] mSmall.estimates :=
  ⟨by decide, C10_zero_params_use_estimates mSmall (5, 51 / 10) [50] [0] (by decide)⟩

/-- Reading position j of a list built by mapping over List.range. -/
theorem getD_map_range {α : Type} (f : ℕ → α) {k j : ℕ} (h : j < k) (d : α) :
    ((List.range k).map f).getD j d = f j := by
  rw [List.getD_eq_getElem?_getD, List.getElem?_map, List.getElem?_range h]
  rfl

/-- C3: every entry the transition-matrix builder writes.  With x the
midpoint of true-length column i and y the midpoint of observed row j, the
three cases are the truncated downshift density, the shifted upshift
density, and the half-half mixture of both one-sided densities evaluated
at zero shift, each damped by the detection probability and scaled by the
bin width. -/
theorem C3_trans_mat_entries (P : Prims) (m : Model) (i j : ℕ)
    (hi : i < m.trans_mat.length) (hj : j < m.trans_mat.length) :
    (j < i →
      ((calculate_trans_mat P m).trans_mat.getD j []).getD i 0
        = (1 - censor_prob P (m.mid_bins.getD i 0)) *
            (prob_down P (m.mid_bins.getD i 0) * down_rate (m.mid_bins.getD i 0) *
              P.exp (-(down_rate (m.mid_bins.getD i 0)) *
                (m.mid_bins.getD i 0 - m.mid_bins.getD j 0)) /
              (1 - P.exp (-(down_rate (m.mid_bins.getD i 0)) * (m.mid_bins.getD i 0 - 1)))) *
            m.bin_width)
    ∧ (i < j →
      ((calculate_trans_mat P m).trans_mat.getD j []).getD i 0
        = (1 - censor_prob P (m.mid_bins.getD i 0)) *
            ((1 - prob_down P (m.mid_bins.getD i 0)) * up_rate (m.mid_bins.getD i 0) *
              P.exp (-(up_rate (m.mid_bins.getD i 0)) *
                (m.mid_bins.getD j 0 - max (m.mid_bins.getD i 0) 1))) *
            m.bin_width)
    ∧ (j = i →
      ((calculate_trans_mat P m).trans_mat.getD j []).getD i 0
        = (1 - censor_prob P (m.mid_bins.getD i 0)) * (1 / 2) *
            (prob_down P (m.mid_bins.getD i 0) * down_rate (m.mid_bins.getD i 0) *
                P.exp (-(down_rate (m.mid_bins.getD i 0)) *
                  (m.mid_bins.getD i 0 - m.mid_bins.getD i 0)) /
                (1 - P.exp (-(down_rate (m.mid_bins.getD i 0)) * (m.mid_bins.getD i 0 - 1))) +
              (1 - prob_down P (m.mid_bins.getD i 0)) * up_rate (m.mid_bins.getD i 0) *
                P.exp (-(up_rate (m.mid_bins.getD i 0)) *
                  (m.mid_bins.getD i 0 - m.mid_bins.getD i 0))) *
            m.bin_width) := by
  have he : ((calculate_trans_mat P m).trans_mat.getD j []).getD i 0
      = trans_entry P m.mid_bins m.bin_width j i := by
    simp only [calculate_trans_mat]
    rw [getD_map_range _ hj, getD_map_range _ hi]
  refine ⟨fun hji => ?_, fun hij => ?_, fun hji => ?_⟩
  · rw [he]; simp only [trans_entry]; rw [if_pos hji]
  · rw [he]; simp only [trans_entry]
    rw [if_neg (by omega), if_pos hij]
  · subst hji
    rw [he]; simp only [trans_entry]
    rw [if_neg (by omega), if_neg (by omega)]

/-- Witness for C3 at the concrete 3-bin model: the downshift entry (row
0, column 1). -/
theorem C3_trans_mat_entries_witness :
    1 < mErr.trans_mat.length ∧ 0 < mErr.trans_mat.length ∧
      ((calculate_trans_mat P0 mErr).trans_mat.getD 0 []).getD 1 0
        = (1 - censor_prob P0 (mErr.mid_bins.getD 1 0)) *
            (prob_down P0 (mErr.mid_bins.getD 1 0) * down_rate (mErr.mid_bins.getD 1 0) *
              P0.exp (-(down_rate (mErr.mid_bins.getD 1 0)) *
                (mErr.mid_bins.getD 1 0 - mErr.mid_bins.getD 0 0)) /
              (1 - P0.exp (-(down_rate (mErr.mid_bins.getD 1 0)) *
                (mErr.mid_bins.getD 1 0 - 1)))) *
            mErr.bin_width :=
  ⟨by rw [mErr_trans_len]; omega, by rw [mErr_trans_len]; omega,
    (C3_trans_mat_entries P0 mErr 1 0 (by rw [mErr_trans_len]; omega)
      (by rw [mErr_trans_len]; omega)).1 (by omega)⟩

/-- Every element numpy arange produces with a positive step lies strictly
below the stop value. -/
theorem arange_mem_lt {a b w y : ℚ} (hw : 0 < w) (hy : y ∈ arange a b w) : y < b := by
  rw [arange, if_pos hw.ne'] at hy
  obtain ⟨k, hk, rfl⟩ := List.mem_map.mp hy
  rw [List.mem_range] at hk
  have h1 : (k : ℤ) < ⌈(b - a) / w⌉ := Int.lt_toNat.mp hk
  have h2 : (k : ℚ) < (b - a) / w := by
    have h3 : ((k : ℤ) : ℚ) ≤ (⌈(b - a) / w⌉ : ℚ) - 1 := by
      have : (k : ℤ) ≤ ⌈(b - a) / w⌉ - 1 := by omega
      exact_mod_cast this
    have h4 : (⌈(b - a) / w⌉ : ℚ) < (b - a) / w + 1 := Int.ceil_lt_add_one _
    push_cast at h3
    linarith
  have h5 : (k : ℚ) * w < (b - a) / w * w :=
    mul_lt_mul_of_pos_right h2 hw
  rw [div_mul_cancel₀ _ (ne_of_gt hw)] at h5
  linarith

/-- C6 counterexample: a configuration whose min_len (100) lies far outside
the bin range [0, 0.3) is accepted by the constructor, which performs no
validation of the analysis window and raises nothing on this input: it
produces a model instance whose window start index simply saturates at
the grid size.  This refutes the claim that construction fails fast with
a ConfigurationError on such input. -/
theorem C6_counterexample :
    (mle_init P0 densId [1, 1] [50] [[5]] [100] false 0 (3 / 10) (1 / 10) 100
        (2 / 10)).min_ind = 3
    ∧ (mle_init P0 densId [1, 1] [50] [[5]] [100] false 0 (3 / 10) (1 / 10) 100
        (2 / 10)).mid_bins.length = 3 := by
  constructor
  · have h : (mle_init P0 densId [1, 1] [50] [[5]] [100] false 0 (3 / 10) (1 / 10) 100
        (2 / 10)).min_ind = bisect_left (arange 0 (3 / 10) (1 / 10)) 100 := rfl
    rw [h, arange_small, bisect_left]
    simp only [List.countP_cons, List.countP_nil, decide_eq_true_eq]
    norm_num
  · have h : (mle_init P0 densId [1, 1] [50] [[5]] [100] false 0 (3 / 10) (1 / 10) 100
        (2 / 10)).mid_bins
        = (arange 0 (3 / 10) (1 / 10)).map (fun b => b + 0.5 * (1 / 10)) := rfl
    rw [h, arange_small]
    rfl

/-- C6 amended: no ConfigurationError exists and the constructor validates
nothing about the analysis window; with a positive bin width, a min_len
at or above the top of the bin range still yields a model instance whose
window start index equals the total number of bins (an empty analysis
window) instead of raising. -/
theorem C6_amended_no_validation (P : Prims) (dens : List ℚ → ℚ → List ℚ → List ℚ)
    (sp dist : List ℚ) (ibd : List (List ℚ)) (nr : List ℚ) (em : Bool)
    (a b w mn mx : ℚ) (hw : 0 < w) (hmn : b ≤ mn) :
    (mle_init P dens sp dist ibd nr em a b w mn mx).min_ind
      = (mle_init P dens sp dist ibd nr em a b w mn mx).mid_bins.length := by
  have key : bisect_left (arange a b w) mn = (arange a b w).length := by
    rw [bisect_left, List.countP_eq_length]
    intro y hy
    simp only [decide_eq_true_eq]
    exact lt_of_lt_of_le (arange_mem_lt hw hy) hmn
  cases em <;> simp [mle_init, create_bins, calculate_trans_mat, key]

/-- Witness for the amended C6 at a concrete malformed configuration. -/
theorem C6_amended_no_validation_witness :
    ((0 : ℚ) < 1 / 10) ∧ ((3 : ℚ) / 10 ≤ 100) ∧
      (mle_init P0 densId [1, 1] [50] [[5]] [100] false 0 (3 / 10) (1 / 10) 100
          (2 / 10)).min_ind
        = (mle_init P0 densId [1, 1] [50] [[5]] [100] false 0 (3 / 10) (1 / 10) 100
            (2 / 10)).mid_bins.length :=
  ⟨by norm_num, by norm_num,
    C6_amended_no_validation P0 densId [1, 1] [50] [[5]] [100] false 0 (3 / 10) (1 / 10)
      100 (2 / 10) (by norm_num) (by norm_num)⟩

/-- The last element with a default is a member of any nonempty list. -/
theorem getLastD_mem {l : List ℚ} (d : ℚ) (h : l ≠ []) : l.getLastD d ∈ l := by
  cases l with
  | nil => exact absurd rfl h
  | cons a t =>
    rw [List.getLastD_cons]
    exact List.getLastD_mem_cons t a

/-- Python indexing at minus one reads the last element. -/
theorem pyGet_neg_one {l : List ℚ} (h : l ≠ []) : pyGet l (-1) = l.getLastD 0 := by
  have hlen : 0 < l.length := List.length_pos.mpr h
  rw [pyGet, if_neg (by norm_num)]
  have ht : ((l.length : ℤ) + (-1)).toNat = l.length - 1 := by omega
  rw [ht, List.getD_eq_getElem?_getD, ← List.getLast?_eq_getElem?, List.getLastD_eq_getLast?]

/-- C9: a block length exactly at the lower window edge survives the
filter, is assigned window-relative bin index minus one by the leftmost
insertion-point search, and Python's negative indexing therefore reads the
last entry of the window slice rather than the first. -/
theorem C9_lower_edge_negative_index (m : Model) (x r : ℚ) (l : List ℚ)
    (params : List ℚ)
    (hne : window_edges m ≠ [])
    (hx : x = (window_edges m).headD 0)
    (hmin : ∀ y ∈ window_edges m, x ≤ y) :
    (x ∈ l → x ∈ retained m l)
    ∧ obs_bin m x = -1
    ∧ (window_probs (evalModel m r params) ≠ [] →
        pyGet (window_probs (evalModel m r params)) (obs_bin m x)
          = (window_probs (evalModel m r params)).getLastD 0) := by
  have hbl : bisect_left (window_edges m) x = 0 := by
    rw [bisect_left, List.countP_eq_zero]
    intro y hy
    simp only [decide_eq_true_eq]
    exact not_lt.mpr (hmin y hy)
  have hob : obs_bin m x = -1 := by
    rw [obs_bin, hbl]
    rfl
  refine ⟨fun hxl => ?_, hob, fun hne2 => ?_⟩
  · rw [retained, List.mem_filter]
    refine ⟨hxl, ?_⟩
    have h1 : (window_edges m).headD 0 ≤ x := le_of_eq hx.symm
    have h2 : x ≤ (window_edges m).getLastD 0 := hmin _ (getLastD_mem _ hne)
    simp only [Bool.and_eq_true, decide_eq_true_eq]
    exact ⟨h1, h2⟩
  · rw [hob]
    exact pyGet_neg_one hne2

/-- Witness for C9 on the concrete 3-bin model: the lower window edge is
0.1 and receives index minus one. -/
theorem C9_lower_edge_negative_index_witness :
    (window_edges mSmall ≠ [])
    ∧ ((1 / 10 : ℚ) = (window_edges mSmall).headD 0)
    ∧ (∀ y ∈ window_edges mSmall, (1 / 10 : ℚ) ≤ y)
    ∧ (((1 / 10 : ℚ) ∈ ([1 / 10] : List ℚ) → (1 / 10 : ℚ) ∈ retained mSmall [1 / 10])
        ∧ obs_bin mSmall (1 / 10) = -1
        ∧ (window_probs (evalModel mSmall 50 [1, 1]) ≠ [] →
            pyGet (window_probs (evalModel mSmall 50 [1, 1])) (obs_bin mSmall (1 / 10))
              = (window_probs (evalModel mSmall 50 [1, 1])).getLastD 0)) :=
  ⟨by rw [window_edges_mSmall]; simp,
    by rw [window_edges_mSmall]; norm_num,
    by rw [window_edges_mSmall]; norm_num [List.forall_mem_cons],
    C9_lower_edge_negative_index mSmall (1 / 10) 50 [1 / 10] [1, 1]
      (by rw [window_edges_mSmall]; simp)
      (by rw [window_edges_mSmall]; norm_num)
      (by rw [window_edges_mSmall]; norm_num [List.forall_mem_cons])⟩

/-- One loop step of get_bl_shr_interval, split into state and value. -/
theorem gbs_body_eq (ind ind1 : ℕ) (ps : List ℚ) (itv : ℚ × ℚ) (mcur : Model)
    (acc : List ℚ) (ri : ℚ) :
    gbs_body ind ind1 ps itv (mcur, acc) ri
      = (evalModel mcur ri ps, acc ++ [gbs_val mcur ind ind1 ps itv ri]) := rfl

/-- The per-distance estimate only reads fields the transient recomputation
preserves, so it is unchanged by a preceding recomputation. -/
theorem gbs_val_stable (m : Model) (r0 : ℚ) (ps0 : List ℚ) (ind ind1 : ℕ)
    (ps : List ℚ) (itv : ℚ × ℚ) (ri : ℚ) :
    gbs_val (evalModel m r0 ps0) ind ind1 ps itv ri = gbs_val m ind ind1 ps itv ri := rfl

/-- The interval-query loop produces one estimate per distance, each a
function of the initial model state alone. -/
theorem gbs_foldl (ind ind1 : ℕ) (ps : List ℚ) (itv : ℚ × ℚ) (r : List ℚ) :
    ∀ (mcur : Model) (acc : List ℚ),
      (r.foldl (gbs_body ind ind1 ps itv) (mcur, acc)).2
        = acc ++ r.map (gbs_val mcur ind ind1 ps itv) := by
  induction r with
  | nil => intro mcur acc; simp
  | cons ri rt ih =>
    intro mcur acc
    rw [List.foldl_cons, gbs_body_eq, ih, List.map_cons]
    rw [List.map_congr_left (fun y _ => gbs_val_stable mcur ri ps ind ind1 ps itv y)]
    simp

/-- The value component of get_bl_shr_interval in closed form. -/
theorem get_bl_shr_interval_snd (m : Model) (itv : ℚ × ℚ) (r : List ℚ)
    (params : List ℚ) :
    (get_bl_shr_interval m itv r params).2
      = r.map (gbs_val m
          (bisect_right (m.mid_bins.map (fun v => v - 0.5 * m.bin_width)) itv.1)
          (bisect_left (m.mid_bins.map (fun v => v - 0.5 * m.bin_width)) itv.2)
          (if params.getD 0 0 = 0 then m.estimates else params) itv) := by
  have h := gbs_foldl
      (bisect_right (m.mid_bins.map (fun v => v - 0.5 * m.bin_width)) itv.1)
      (bisect_left (m.mid_bins.map (fun v => v - 0.5 * m.bin_width)) itv.2)
      (if params.getD 0 0 = 0 then m.estimates else params) itv r m []
  rw [List.nil_append] at h
  exact h

/-- Counting the range elements at or below k. -/
theorem countP_range_le (n k : ℕ) :
    (List.range n).countP (fun j => decide (j ≤ k)) = min (k + 1) n := by
  induction n with
  | zero => simp
  | succ n ih =>
    rw [List.range_succ, List.countP_append, ih, List.countP_singleton]
    by_cases h : n ≤ k
    · rw [if_pos (by simpa using h)]
      omega
    · rw [if_neg (by simpa using h)]
      omega

/-- bisect_right of the k-th arange element: insertion to its right. -/
theorem bisect_right_arange (a b w : ℚ) (k : ℕ) (hw : 0 < w) :
    bisect_right (arange a b w) (a + (k : ℚ) * w) = min (k + 1) ⌈(b - a) / w⌉.toNat := by
  rw [bisect_right, arange, if_pos hw.ne', List.countP_map]
  have hcg : ∀ j ∈ List.range ⌈(b - a) / w⌉.toNat,
      (((fun y => decide (y ≤ a + (k : ℚ) * w)) ∘ fun (j : ℕ) => a + (j : ℚ) * w) j = true
        ↔ (fun j => decide (j ≤ k)) j = true) := by
    intro j _
    simp only [Function.comp_apply, decide_eq_true_eq]
    constructor
    · intro hle
      have h1 : (j : ℚ) * w ≤ (k : ℚ) * w := by linarith
      have h2 : (j : ℚ) ≤ (k : ℚ) := le_of_mul_le_mul_right h1 hw
      exact_mod_cast h2
    · intro hjk
      have h2 : (j : ℚ) ≤ (k : ℚ) := by exact_mod_cast hjk
      nlinarith [mul_le_mul_of_nonneg_right h2 hw.le]
  rw [List.countP_congr hcg, countP_range_le]

/-- bisect_left of the (k+1)-st edge value: counts the first k+1 elements. -/
theorem bisect_left_arange (a b w : ℚ) (k : ℕ) (hw : 0 < w) :
    bisect_left (arange a b w) (a + ((k : ℚ) + 1) * w)
      = min (k + 1) ⌈(b - a) / w⌉.toNat := by
  rw [bisect_left, arange, if_pos hw.ne', List.countP_map]
  have hcg : ∀ j ∈ List.range ⌈(b - a) / w⌉.toNat,
      (((fun y => decide (y < a + ((k : ℚ) + 1) * w)) ∘ fun (j : ℕ) => a + (j : ℚ) * w) j = true
        ↔ (fun j => decide (j ≤ k)) j = true) := by
    intro j _
    simp only [Function.comp_apply, decide_eq_true_eq]
    constructor
    · intro hlt
      have h1 : (j : ℚ) * w < ((k : ℚ) + 1) * w := by linarith
      have h2 : (j : ℚ) < (k : ℚ) + 1 := lt_of_mul_lt_mul_right h1 hw.le
      have h3 : j < k + 1 := by exact_mod_cast h2
      omega
    · intro hjk
      have h2 : (j : ℚ) < (k : ℚ) + 1 := by
        have : (j : ℚ) ≤ (k : ℚ) := by exact_mod_cast hjk
        linarith
      nlinarith [mul_lt_mul_of_pos_right h2 hw]
  rw [List.countP_congr hcg, countP_range_le]

/-- Python indexing at a nonnegative index is plain list indexing. -/
theorem pyGet_ofNat (xs : List ℚ) (kk : ℕ) : pyGet xs (kk : ℤ) = xs.getD kk 0 := by
  rw [pyGet, if_pos (Int.natCast_nonneg kk), Int.toNat_natCast]

/-- The grid midpoints of any constructed model. -/
theorem mle_init_mid_bins (P : Prims) (dens : List ℚ → ℚ → List ℚ → List ℚ)
    (sp dist : List ℚ) (ibd : List (List ℚ)) (nr : List ℚ) (em : Bool)
    (a b w mn mx : ℚ) :
    (mle_init P dens sp dist ibd nr em a b w mn mx).mid_bins
      = (arange a b w).map (fun v => v + 0.5 * w) := by
  cases em <;> simp [mle_init, create_bins, calculate_trans_mat]

/-- The bin width of any constructed model. -/
theorem mle_init_bin_width (P : Prims) (dens : List ℚ → ℚ → List ℚ → List ℚ)
    (sp dist : List ℚ) (ibd : List (List ℚ)) (nr : List ℚ) (em : Bool)
    (a b w mn mx : ℚ) :
    (mle_init P dens sp dist ibd nr em a b w mn mx).bin_width = w := by
  cases em <;> simp [mle_init, create_bins, calculate_trans_mat]

/-- Shifting the midpoints back down by half a bin width recovers the
arange edges exactly. -/
theorem mle_init_edges (P : Prims) (dens : List ℚ → ℚ → List ℚ → List ℚ)
    (sp dist : List ℚ) (ibd : List (List ℚ)) (nr : List ℚ) (em : Bool)
    (a b w mn mx : ℚ) :
    (mle_init P dens sp dist ibd nr em a b w mn mx).mid_bins.map
        (fun v => v - 0.5 * (mle_init P dens sp dist ibd nr em a b w mn mx).bin_width)
      = arange a b w := by
  rw [mle_init_mid_bins, mle_init_bin_width, List.map_map]
  have hf : ∀ x ∈ arange a b w,
      ((fun v => v - 0.5 * w) ∘ fun v => v + 0.5 * w) x = id x := by
    intro x _
    simp only [Function.comp_apply, id]
    ring
  rw [List.map_congr_left hf, List.map_id]

/-- The full sharing probabilities of the concrete error-free 3-bin model:
the identity density at the midpoints, scaled by the bin width. -/
theorem mSmall_full_shr : (evalModel mSmall 50 [1, 1]).full_shr_pr
    = [1 / 200, 3 / 200, 1 / 40] := by
  have h : (evalModel mSmall 50 [1, 1]).full_shr_pr
      = mSmall.mid_bins.map (fun v => v * (1 / 10)) := rfl
  rw [h, mSmall_mid_bins]
  norm_num

/-- C5 counterexample: on the concrete 3-bin model, querying the interval
[0.1, 0.2], which spans exactly bin 1 (edges 0.1 and 0.2), returns 1/50 =
the average of bins 1 and 2, while bin 1's full sharing probability is
3/200; the two differ by a third of the value, not by a rounding
tolerance.  The insertion-point arithmetic (bisect_right of the left edge
minus one up to bisect_left of the right edge inclusive) always covers the
following bin as well. -/
theorem C5_counterexample :
    (get_bl_shr_interval mSmall (1 / 10, 1 / 5) [50] [1, 1]).2 = [1 / 50]
    ∧ (evalModel mSmall 50 [1, 1]).full_shr_pr.getD 1 0 = 3 / 200
    ∧ (1 / 50 : ℚ) ≠ 3 / 200 := by
  refine ⟨?_, by rw [mSmall_full_shr]; rfl, by norm_num⟩
  rw [get_bl_shr_interval_snd, if_neg (by norm_num)]
  have hedges : mSmall.mid_bins.map (fun v => v - 0.5 * mSmall.bin_width)
      = [0, 1 / 10, 1 / 5] := by
    rw [mSmall_mid_bins, mSmall_bin_width]
    norm_num
  rw [hedges]
  have hbr : bisect_right [0, 1 / 10, 1 / 5] (((1 : ℚ) / 10, (1 : ℚ) / 5).1) = 2 := by
    rw [bisect_right]
    simp only [List.countP_cons, List.countP_nil, decide_eq_true_eq]
    norm_num
  have hbl : bisect_left [0, 1 / 10, 1 / 5] (((1 : ℚ) / 10, (1 : ℚ) / 5).2) = 2 := by
    rw [bisect_left]
    simp only [List.countP_cons, List.countP_nil, decide_eq_true_eq]
    norm_num
  rw [hbr, hbl]
  simp only [List.map_cons, List.map_nil]
  rw [gbs_val]
  have hint : intRange (((2 : ℕ) : ℤ) - 1) (((2 : ℕ) : ℤ) + 1) = [1, 2] := rfl
  rw [hint, mSmall_full_shr]
  simp only [List.map_cons, List.map_nil]
  rw [show pyGet [1 / 200, 3 / 200, 1 / 40] 1 = 3 / 200 from rfl,
    show pyGet [1 / 200, 3 / 200, 1 / 40] 2 = 1 / 40 from rfl,
    mean, mSmall_bin_width]
  norm_num

/-- C5 amended: for a constructed model and any non-final grid bin k,
querying the interval that exactly spans bin k (from its lower edge
a + k·w to its upper edge a + (k+1)·w, with explicit parameters) returns,
for each distance, the average of bin k's and bin (k+1)'s full sharing
probabilities — the interval rescaling factor being exactly one — rather
than bin k's value alone. -/
theorem C5_amended_interval_query_averages_two_bins (P : Prims)
    (dens : List ℚ → ℚ → List ℚ → List ℚ) (sp dist : List ℚ) (ibd : List (List ℚ))
    (nr : List ℚ) (em : Bool) (a b w mn mx : ℚ) (r : List ℚ) (params : List ℚ)
    (k : ℕ) (hw : 0 < w) (hk : k + 1 < ⌈(b - a) / w⌉.toNat)
    (hp : params.getD 0 0 ≠ 0) :
    (get_bl_shr_interval (mle_init P dens sp dist ibd nr em a b w mn mx)
        (a + (k : ℚ) * w, a + ((k : ℚ) + 1) * w) r params).2
      = r.map (fun ri =>
          ((evalModel (mle_init P dens sp dist ibd nr em a b w mn mx) ri
                params).full_shr_pr.getD k 0
            + (evalModel (mle_init P dens sp dist ibd nr em a b w mn mx) ri
                params).full_shr_pr.getD (k + 1) 0) / 2) := by
  rw [get_bl_shr_interval_snd, if_neg hp, mle_init_edges]
  have h1 : ((a + (k : ℚ) * w, a + ((k : ℚ) + 1) * w) : ℚ × ℚ).1 = a + (k : ℚ) * w := rfl
  have h2 : ((a + (k : ℚ) * w, a + ((k : ℚ) + 1) * w) : ℚ × ℚ).2
      = a + ((k : ℚ) + 1) * w := rfl
  rw [h1, h2, bisect_right_arange a b w k hw, bisect_left_arange a b w k hw]
  have hmin2 : min (k + 1) ⌈(b - a) / w⌉.toNat = k + 1 := by omega
  rw [hmin2]
  apply List.map_congr_left
  intro ri _
  rw [gbs_val]
  have hint : intRange (((k + 1 : ℕ) : ℤ) - 1) (((k + 1 : ℕ) : ℤ) + 1)
      = [(k : ℤ), (k : ℤ) + 1] := by
    rw [intRange]
    have h3 : ((((k + 1 : ℕ) : ℤ) + 1) - (((k + 1 : ℕ) : ℤ) - 1)).toNat = 2 := by omega
    rw [h3, show List.range 2 = [0, 1] from rfl]
    simp only [List.map_cons, List.map_nil, List.cons.injEq, and_true]
    constructor <;> push_cast <;> ring
  rw [hint]
  simp only [List.map_cons, List.map_nil]
  rw [show ((k : ℤ) + 1) = ((k + 1 : ℕ) : ℤ) by push_cast; ring]
  rw [pyGet_ofNat, pyGet_ofNat, mean, mle_init_bin_width]
  simp only [List.sum_cons, List.sum_nil, List.length_cons, List.length_nil]
  have hse : (a + ((k : ℚ) + 1) * w) - (a + (k : ℚ) * w) = w := by ring
  rw [hse]
  have hw' : w ≠ 0 := ne_of_gt hw
  field_simp
  ring

/-- Witness for the amended C5 at the concrete 3-bin configuration and
bin k = 1. -/
theorem C5_amended_interval_query_averages_two_bins_witness :
    ((0 : ℚ) < 1 / 10)
    ∧ (1 + 1 < ⌈(((3 : ℚ) / 10) - 0) / (1 / 10)⌉.toNat)
    ∧ (([1, 1] : List ℚ).getD 0 0 ≠ 0)
    ∧ (get_bl_shr_interval (mle_init P0 densId [1, 1] [50] [[5]] [100] false 0 (3 / 10)
          (1 / 10) (1 / 10) (2 / 10))
          (0 + ((1 : ℕ) : ℚ) * (1 / 10), 0 + (((1 : ℕ) : ℚ) + 1) * (1 / 10)) [50] [1, 1]).2
        = [50].map (fun ri =>
            ((evalModel (mle_init P0 densId [1, 1] [50] [[5]] [100] false 0 (3 / 10)
                  (1 / 10) (1 / 10) (2 / 10)) ri [1, 1]).full_shr_pr.getD 1 0
              + (evalModel (mle_init P0 densId [1, 1] [50] [[5]] [100] false 0 (3 / 10)
                  (1 / 10) (1 / 10) (2 / 10)) ri [1, 1]).full_shr_pr.getD (1 + 1) 0) / 2) :=
  ⟨by norm_num,
    by rw [show (⌈(((3 : ℚ) / 10) - 0) / (1 / 10)⌉) = 3 from by norm_num]; decide,
    by decide,
    C5_amended_interval_query_averages_two_bins P0 densId [1, 1] [50] [[5]] [100] false
      0 (3 / 10) (1 / 10) (1 / 10) (2 / 10) [50] [1, 1] 1 (by norm_num)
      (by rw [show (⌈(((3 : ℚ) / 10) - 0) / (1 / 10)⌉) = 3 from by norm_num]; decide)
      (by decide)⟩

